import Mathlib

/-!
Verification of the diecut template engine core: the three-way update/merge
engine (`update/merge.rs`, `update/diff.rs`), the file materializer
(`render/walker.rs`), the variable resolution engine (`prompt/engine.rs`) and
the answers persistence layer (`answers/mod.rs`), shallowly embedded in Lean.

File trees are association lists from relative-path strings to file contents
(contents modelled as strings of bytes); the on-disk project state is a partial
map from paths to contents.  External collaborators (the Tera expression
evaluator, the globset matcher, the similar diff hunk renderer) are passed as
explicit function parameters, as the specification treats them as external.
-/

namespace Diecut

/-! ## Path name helpers: Rust `Path::extension` / `Path::with_extension`

`apply_merge` derives its artifact paths with
`path.with_extension(format!("{ext}.rej"))` (resp. `.removing`).  We model the
Rust splitting of a file name at its last dot, including the hidden-file rule
(a leading dot alone does not start an extension). -/

/-- Split a character list at its last occurrence of `sep`: returns
`some (before, after)` where the original list is `before ++ sep :: after`,
or `none` if `sep` does not occur. -/
def lastSplitC (sep : Char) : List Char → Option (List Char × List Char)
  | [] => none
  | c :: cs =>
    match lastSplitC sep cs with
    | some (st, ex) => some (c :: st, ex)
    | none => if c = sep then some ([], cs) else none

/-- Rust `Path::file_stem` on a bare file name: everything before the last dot,
except that a lone leading dot (hidden file) yields the whole name. -/
def rustFileStem (cs : List Char) : List Char :=
  match lastSplitC '.' cs with
  | some (st, _) => if st = [] then cs else st
  | none => cs

/-- Rust `Path::extension` on a bare file name: the part after the last dot,
or `none` when there is no dot or the only dot is the leading one. -/
def rustExtension (cs : List Char) : Option (List Char) :=
  match lastSplitC '.' cs with
  | some (st, ex) => if st = [] then none else some ex
  | none => none

/-- Rust `Path::with_extension` on a bare file name: the stem followed by a dot
and the new extension (the new extension is nonempty in all uses here). -/
def rustWithExtension (cs newExt : List Char) : List Char :=
  if newExt = [] then rustFileStem cs else rustFileStem cs ++ '.' :: newExt

/-- The artifact file name computed by `apply_merge`:
`path.with_extension(extension().map(|e| format!("{e}.{kind}")).unwrap_or(kind))`. -/
def rustArtifactNameL (cs kind : List Char) : List Char :=
  rustWithExtension cs (((rustExtension cs).map (fun e => e ++ '.' :: kind)).getD kind)

/-- Artifact path for a whole relative path: Rust `with_extension` touches only
the final path component (the file name). -/
def rustPathArtifact (p kind : String) : String :=
  match lastSplitC '/' p.toList with
  | some (d, n) => String.mk (d ++ '/' :: rustArtifactNameL n kind.toList)
  | none => String.mk (rustArtifactNameL p.toList kind.toList)

/-! ## File trees and the three-way merge engine (`update/merge.rs`) -/

/-- A materialized file tree: relative path to byte content. -/
abbrev Tree := List (String × String)

/-- Look up the content of a file in a tree (first binding wins, mirroring a
file system where each path names one file). -/
def treeGet : Tree → String → Option String
  | [], _ => none
  | (q, c) :: t, p => if p = q then some c else treeGet t p

/-- The name of the answers file that `collect_files` always skips. -/
def answersFileName : String := ".diecut-answers.toml"

/-- The set of relative file paths of a directory, as collected by
`diff::collect_files`: every file except the top-level answers file. -/
def collect_files (dir : Tree) : List String :=
  (dir.map Prod.fst).filter (fun p => p ≠ answersFileName)

/-- Byte-wise string comparison used by `sort` on `PathBuf`s (the order is only
used to fix the processing order of the merge loop). -/
def charListLe : List Char → List Char → Bool
  | [], _ => true
  | _ :: _, [] => false
  | a :: as, b :: bs => if a = b then charListLe as bs else decide (a < b)

def strLe (a b : String) : Bool := charListLe a.toList b.toList

def insertSorted (x : String) : List String → List String
  | [] => [x]
  | y :: ys => if strLe x y then x :: y :: ys else y :: insertSorted x ys

def sortStrings : List String → List String
  | [] => []
  | x :: xs => insertSorted x (sortStrings xs)

/-- The outcome of merging a single file (`MergeAction` in `update/merge.rs`). -/
inductive MergeAction
  | UpdateFromTemplate
  | AddFromTemplate
  | MarkForRemoval
  | KeepUser
  | Conflict
  | Unchanged
deriving DecidableEq, Repr

structure FileMergeResult where
  rel_path : String
  action : MergeAction
deriving DecidableEq, Repr

/-- Per-path classification of `three_way_merge`, mirroring the Rust match on
`(in_old, in_new, in_project)` and the `files_equal` comparisons. -/
def classify (oldC newC projC : Option String) : MergeAction :=
  match oldC, newC, projC with
  | some o, some n, some p =>
    if p = o then
      if o = n then .Unchanged else .UpdateFromTemplate
    else
      if o = n then .KeepUser
      else if p = n then .Unchanged else .Conflict
  | none, some _, none => .AddFromTemplate
  | some o, none, some p => if p = o then .MarkForRemoval else .Conflict
  | none, none, some _ => .KeepUser
  | none, some n, some p => if p = n then .Unchanged else .Conflict
  | some _, none, none => .Unchanged
  | some o, some n, none => if o = n then .KeepUser else .Conflict
  | none, none, none => .Unchanged

/-- Modelled from the spec: the six-outcome decision table of section 4.4,
written with the spec's presence/equality conditions, to be compared with the
`classify` function translated from the source. -/
def classifySpecTable (oldC newC projC : Option String) : MergeAction :=
  match oldC, newC, projC with
  | some o, some n, some p =>
    if p = o ∧ o = n then .Unchanged
    else if p = o ∧ o ≠ n then .UpdateFromTemplate
    else if o ≠ p ∧ o = n then .KeepUser
    else if p = n then .Unchanged else .Conflict
  | none, some _, none => .AddFromTemplate
  | some o, none, some p => if p = o then .MarkForRemoval else .Conflict
  | none, none, some _ => .KeepUser
  | none, some n, some p => if p = n then .Unchanged else .Conflict
  | some _, none, none => .Unchanged
  | some o, some n, none => if o = n then .KeepUser else .Conflict
  | none, none, none => .Unchanged

/-- Remove duplicates from a list of paths (the merge loop unions the three
file sets through a `HashSet`, so each path is classified once). -/
def dedupStr : List String → List String
  | [] => []
  | x :: xs => if x ∈ xs then dedupStr xs else x :: dedupStr xs

/-- The sorted union of the three collected file sets. -/
def mergePaths (proj old new : Tree) : List String :=
  sortStrings (dedupStr (collect_files proj ++ collect_files old ++ collect_files new))

/-- The three-way merge: classify every path in the union of the three file
sets and keep every result whose action is not `Unchanged`. -/
def three_way_merge (proj old new : Tree) : List FileMergeResult :=
  ((mergePaths proj old new).map
      (fun p => FileMergeResult.mk p
        (classify (treeGet old p) (treeGet new p) (treeGet proj p)))).filter
    (fun r => r.action ≠ .Unchanged)

/-! ## Applying merge results (`apply_merge` in `update/merge.rs`)

The user's project directory is modelled as a partial map from relative paths
to file contents.  `apply_merge` walks the result list in order and performs
the per-action effects; the unified-diff hunk renderer of the `similar` crate
is an external collaborator passed as a function. -/

/-- The on-disk state of the project directory. -/
abbrev FS := String → Option String

def writeFS (fs : FS) (p c : String) : FS :=
  fun q => if q = p then some c else fs q

/-- The explanatory message written to the `.removing` sibling. -/
def removalMessage : String :=
  "This file was removed in the updated template.\nReview and delete it manually if no longer needed.\n"

/-- The diff rendering of `diff::unified_diff`: the `---`/`+++` header followed
by the hunks produced by the external `similar` crate (`hunks` parameter). -/
def unified_diff (hunks : String → String → String) (oldS newS p : String) : String :=
  "--- a/" ++ p ++ "\n+++ b/" ++ p ++ "\n" ++ hunks oldS newS

/-- The content of the `.rej` conflict artifact, following the two format
strings of the Conflict arm of `apply_merge`.  `userOpt` is the project file's
content at the conflict path (`read_to_string(...).unwrap_or_default`). -/
def conflictContent (hunks : String → String → String) (oldT newT : Tree)
    (userOpt : Option String) (p : String) : String :=
  let userC := userOpt.getD ""
  let newC := (treeGet newT p).getD ""
  match treeGet oldT p with
  | some oldC =>
    "# Conflict in " ++ p ++
      "\n# Your file differs from both the old and new template versions.\n\n## Template changes (old -> new):\n"
      ++ unified_diff hunks oldC newC p ++
      "\n\n## Your version vs new template:\n" ++ unified_diff hunks userC newC p ++ "\n"
  | none =>
    "# Conflict in " ++ p ++
      "\n# Both you and the template created/modified this file differently.\n\n## Diff (your version vs template):\n"
      ++ unified_diff hunks userC newC p ++ "\n"

/-- The path a single merge result writes to, if any. -/
def writesAt (r : FileMergeResult) : Option String :=
  match r.action with
  | .UpdateFromTemplate => some r.rel_path
  | .AddFromTemplate => some r.rel_path
  | .MarkForRemoval => some (rustPathArtifact r.rel_path "removing")
  | .Conflict => some (rustPathArtifact r.rel_path "rej")
  | .KeepUser => none
  | .Unchanged => none

/-- One iteration of the `apply_merge` loop.  Copying from the new snapshot
fails (an I/O error) when the source file is missing. -/
def applyOne (hunks : String → String → String) (newT oldT : Tree) (fs : FS)
    (r : FileMergeResult) : Except String FS :=
  match r.action with
  | .UpdateFromTemplate | .AddFromTemplate =>
    match treeGet newT r.rel_path with
    | some c => .ok (writeFS fs r.rel_path c)
    | none => .error ("copying " ++ r.rel_path)
  | .MarkForRemoval =>
    .ok (writeFS fs (rustPathArtifact r.rel_path "removing") removalMessage)
  | .Conflict =>
    .ok (writeFS fs (rustPathArtifact r.rel_path "rej")
      (conflictContent hunks oldT newT (fs r.rel_path) r.rel_path))
  | .KeepUser => .ok fs
  | .Unchanged => .ok fs

/-- Apply the merge results to the project directory, in list order. -/
def apply_merge (hunks : String → String → String) (newT oldT : Tree) (fs : FS) :
    List FileMergeResult → Except String FS
  | [] => .ok fs
  | r :: rs =>
    match applyOne hunks newT oldT fs r with
    | .ok fs' => apply_merge hunks newT oldT fs' rs
    | .error e => .error e

/-! ## The file materializer (`render/walker.rs`)

A template content tree is a list of walked entries (relative path components,
directory flag, raw content).  The Tera evaluator (path-component and
file-content rendering, `when`-expression evaluation), the globset matcher and
the binary-content detector are external collaborators passed as functions. -/

/-- One entry of the walked template content tree. -/
structure TemplateEntry where
  relComponents : List String
  isDir : Bool
  content : String
deriving DecidableEq, Repr

/-- A file that would be created during generation (`PlannedFile`). -/
structure PlannedFile where
  relative_path : List String
  content : String
  is_copy : Bool
deriving DecidableEq, Repr

/-- External collaborators and configuration of the walker. -/
structure WalkerParams where
  globMatch : List String → String → Bool
  whenEval : String → Except String Bool
  renderComp : String → Except String String
  renderContent : String → Except String String
  isBinary : String → Bool
  suffix : String
  excludePats : List String
  copyPats : List String
  condRules : List (String × String)

/-- Join relative path components with `/` (the string a `GlobSet` is matched
against). -/
def joinPath (comps : List String) : String := String.intercalate "/" comps

/-- Model of `str::ends_with` (byte comparison modelled on characters). -/
def endsWithL (r suffix : String) : Bool := suffix.toList.isSuffixOf r.toList

/-- Model of `rendered_part.truncate(len - suffix.len())`. -/
def stripSuffixStr (r suffix : String) : String :=
  String.mk (r.toList.take (r.toList.length - suffix.toList.length))

/-- Render every component of a relative path through the evaluator.  As in the
source, the suffix strip is applied inside the per-component loop: any rendered
component that ends with the template suffix is truncated, not only the final
one. -/
def render_relative_path (renderComp : String → Except String String)
    (suffix : String) : List String → Except String (List String)
  | [] => .ok []
  | c :: rest =>
    match renderComp c with
    | .error e => .error e
    | .ok r =>
      let r' := if ¬ suffix.isEmpty ∧ endsWithL r suffix
        then stripSuffixStr r suffix else r
      match render_relative_path renderComp suffix rest with
      | .error e => .error e
      | .ok rest' => .ok (r' :: rest')

/-- Evaluate the `[[files.conditional]]` rules: each `when` expression is
evaluated once, and the patterns whose condition is false are folded into the
conditional exclude set. -/
def evaluate_conditional_files (whenEval : String → Except String Bool) :
    List (String × String) → Except String (List String)
  | [] => .ok []
  | (pat, w) :: rest =>
    match whenEval w with
    | .error e => .error e
    | .ok b =>
      match evaluate_conditional_files whenEval rest with
      | .error e => .error e
      | .ok others => .ok (if b then others else pat :: others)

/-- Process one walked entry of `plan_render`: static exclusion against the
unrendered relative path, path rendering, conditional exclusion against the
rendered path, the copy-versus-render decision, and content rendering. -/
def planOne (P : WalkerParams) (condPats : List String) (e : TemplateEntry) :
    Except String (Option PlannedFile) :=
  let raw := joinPath e.relComponents
  if P.globMatch P.excludePats raw then .ok none
  else
    match render_relative_path P.renderComp P.suffix e.relComponents with
    | .error err => .error err
    | .ok rcomps =>
      let rendered := joinPath rcomps
      if P.globMatch condPats rendered then .ok none
      else if e.isDir then .ok none
      else if P.globMatch P.copyPats rendered || P.isBinary e.content
          || (!P.suffix.isEmpty && !endsWithL raw P.suffix) then
        .ok (some (PlannedFile.mk rcomps e.content true))
      else
        match P.renderContent e.content with
        | .ok r => .ok (some (PlannedFile.mk rcomps r false))
        | .error err => .error err

def planEntries (P : WalkerParams) (condPats : List String) :
    List TemplateEntry → Except String (List PlannedFile)
  | [] => .ok []
  | e :: rest =>
    match planOne P condPats e with
    | .error err => .error err
    | .ok none => planEntries P condPats rest
    | .ok (some pf) =>
      match planEntries P condPats rest with
      | .error err => .error err
      | .ok pfs => .ok (pf :: pfs)

/-- Walk the template entries and collect rendered/copied files into a plan. -/
def plan_render (P : WalkerParams) (entries : List TemplateEntry) :
    Except String (List PlannedFile) :=
  match evaluate_conditional_files P.whenEval P.condRules with
  | .error err => .error err
  | .ok condPats => planEntries P condPats entries

/-- Write the files of a generation plan to disk, in plan order. -/
def execute_plan (files : List PlannedFile) (fs : FS) : FS :=
  files.foldl (fun f pf => writeFS f (joinPath pf.relative_path) pf.content) fs

/-- The content of the last write a plan performs at a path, if any. -/
def lastWriteVal : List PlannedFile → String → Option String
  | [], _ => none
  | pf :: rest, q =>
    match lastWriteVal rest q with
    | some c => some c
    | none => if joinPath pf.relative_path = q then some pf.content else none

/-! ## Variable values and `--data` overrides (`prompt/engine.rs`)

Tera values are serde_json values; numbers are either 64-bit integers or
floats.  Finite floats are modelled exactly as a decimal mantissa and
power-of-ten exponent, since no claim depends on binary rounding. -/

inductive JNum
  | jint (n : Int)
  | jfloat (m : Int) (e : Int)
deriving DecidableEq, Repr

inductive Value
  | vnull
  | vbool (b : Bool)
  | vnum (n : JNum)
  | vstr (s : String)
  | varr (xs : List Value)
deriving Repr

/-- Model of a parsed Rust `f64`: a finite decimal value or a non-finite
special value. -/
inductive F64
  | finite (m : Int) (e : Int)
  | nan
  | inf
  | neginf
deriving DecidableEq, Repr

def F64.isFinite : F64 → Bool
  | .finite _ _ => true
  | _ => false

def digitsToNat (ds : List Char) : Nat :=
  ds.foldl (fun acc c => acc * 10 + (c.toNat - '0'.toNat)) 0

/-- Take the leading run of ASCII digits. -/
def splitDigits : List Char → List Char × List Char
  | [] => ([], [])
  | c :: rest =>
    if c.isDigit then
      let p := splitDigits rest
      (c :: p.1, p.2)
    else ([], c :: rest)

/-- Parse the exponent part of a float literal (after `e`/`E`). -/
def parseExp (cs : List Char) : Option Int :=
  match cs with
  | [] => none
  | '+' :: ds =>
    if ds ≠ [] ∧ ds.all Char.isDigit then some (digitsToNat ds : Int) else none
  | '-' :: ds =>
    if ds ≠ [] ∧ ds.all Char.isDigit then some (-(digitsToNat ds : Int)) else none
  | ds => if ds.all Char.isDigit then some (digitsToNat ds : Int) else none

/-- Parse an unsigned decimal float literal `digits [. digits] [e|E exp]`. -/
def parseDecimalMag (cs : List Char) (neg : Bool) : Option F64 :=
  let ip := (splitDigits cs).1
  let rest := (splitDigits cs).2
  let fp :=
    match rest with
    | '.' :: r => (splitDigits r).1
    | _ => []
  let rest2 :=
    match rest with
    | '.' :: r => (splitDigits r).2
    | _ => rest
  if ip = [] ∧ fp = [] then none
  else
    let m : Int := digitsToNat (ip ++ fp)
    let ms : Int := if neg then -m else m
    let e0 : Int := -(fp.length : Int)
    match rest2 with
    | [] => some (.finite ms e0)
    | 'e' :: r => (parseExp r).map (fun ex => F64.finite ms (e0 + ex))
    | 'E' :: r => (parseExp r).map (fun ex => F64.finite ms (e0 + ex))
    | _ => none

/-- Parse the magnitude of an `f64` literal: the case-insensitive special
tokens `inf`, `infinity` and `nan` of Rust's `f64::from_str`, or a decimal. -/
def parseF64Mag (cs : List Char) (neg : Bool) : Option F64 :=
  let lower := cs.map Char.toLower
  if lower = "inf".toList ∨ lower = "infinity".toList then
    some (if neg then .neginf else .inf)
  else if lower = "nan".toList then some .nan
  else parseDecimalMag cs neg

/-- Model of Rust `str::parse::<f64>`: optional sign, then magnitude. -/
def parseF64 (s : String) : Option F64 :=
  match s.toList with
  | [] => none
  | '+' :: rest => parseF64Mag rest false
  | '-' :: rest => parseF64Mag rest true
  | cs => parseF64Mag cs false

/-- Model of Rust `str::parse::<i64>`: optional sign, digits, range check. -/
def parseI64 (s : String) : Option Int :=
  let parseMag := fun (ds : List Char) (neg : Bool) =>
    if ds ≠ [] ∧ ds.all Char.isDigit then
      let n : Int := digitsToNat ds
      let ns : Int := if neg then -n else n
      if -(2 ^ 63) ≤ ns ∧ ns < 2 ^ 63 then some ns else none
    else none
  match s.toList with
  | '+' :: rest => parseMag rest false
  | '-' :: rest => parseMag rest true
  | cs => parseMag cs false

/-- Model of `serde_json::to_value(f).ok()` on an `f64`: with serde_json's
default features the conversion always returns `Ok` — a finite float becomes a
JSON number, while a non-finite float (NaN or an infinity) becomes
`Value::Null`, because `serde_json::Number::from_f64` rejects it. -/
def serdeToValueOk (f : F64) : Option Value :=
  match f with
  | .finite m e => some (.vnum (.jfloat m e))
  | .nan => some .vnull
  | .inf => some .vnull
  | .neginf => some .vnull

inductive VariableType
  | string
  | bool
  | int
  | float
  | select
  | multiselect
deriving DecidableEq, Repr

structure VariableConfig where
  var_type : VariableType
  secret : Bool
deriving DecidableEq, Repr

def splitOnCommaTrim (s : String) : List String :=
  (s.splitOn ",").map String.trim

/-- Type-coerce a `--data` override per the variable kind, as `parse_override`
does: bool parses `true`/`1`/`yes`; int and float parse or fall back to the raw
string; multi-choice splits on commas and trims. -/
def parse_override (value : String) (var : VariableConfig) : Value :=
  match var.var_type with
  | .bool => .vbool (value = "true" ∨ value = "1" ∨ value = "yes")
  | .int =>
    match parseI64 value with
    | some n => .vnum (.jint n)
    | none => .vstr value
  | .float => ((parseF64 value).bind serdeToValueOk).getD (.vstr value)
  | .multiselect => .varr ((splitOnCommaTrim value).map Value.vstr)
  | .string => .vstr value
  | .select => .vstr value

/-! ## Answers persistence (`answers/mod.rs`)

The answers file is a TOML table with a `_diecut` metadata section and a
`variables` section; the variables section is built from the environment in
iteration order, skipping secret-flagged variables and values with no TOML
representation. -/

inductive TValue
  | tstr (s : String)
  | tint (n : Int)
  | tfloat (m : Int) (e : Int)
  | tbool (b : Bool)
  | tarr (xs : List TValue)
  | ttable (kvs : List (String × TValue))
deriving Repr

mutual

/-- Convert a Tera value to a TOML value (`tera_value_to_toml`): strings,
bools, integers, floats and arrays convert; anything else (null, objects) is
dropped. -/
def tera_value_to_toml : Value → Option TValue
  | .vstr s => some (.tstr s)
  | .vbool b => some (.tbool b)
  | .vnum (.jint n) => some (.tint n)
  | .vnum (.jfloat m e) => some (.tfloat m e)
  | .varr xs => some (.tarr (teraListToToml xs))
  | .vnull => none

def teraListToToml : List Value → List TValue
  | [] => []
  | v :: vs =>
    match tera_value_to_toml v with
    | some t => t :: teraListToToml vs
    | none => teraListToToml vs

end

/-- The slice of the template config that answers writing reads. -/
structure TemplateConfigModel where
  name : String
  version : Option String
  varSpecs : List (String × VariableConfig)
  answers_file : String
deriving Repr

def lookupVar : List (String × VariableConfig) → String → Option VariableConfig
  | [], _ => none
  | (n, vc) :: rest, q => if q = n then some vc else lookupVar rest q

/-- Whether the config flags variable `n` as secret (a variable absent from
the config is not secret). -/
def isSecret (cfg : TemplateConfigModel) (n : String) : Bool :=
  match lookupVar cfg.varSpecs n with
  | some vc => vc.secret
  | none => false

/-- Build the `variables` section: iterate the environment, skip secret
variables, convert the rest. -/
def buildVarsSection (cfg : TemplateConfigModel) :
    List (String × Value) → List (String × TValue)
  | [] => []
  | (n, v) :: rest =>
    if isSecret cfg n then buildVarsSection cfg rest
    else
      match tera_value_to_toml v with
      | some t => (n, t) :: buildVarsSection cfg rest
      | none => buildVarsSection cfg rest

/-- The tool version baked in at compile time (`env!("CARGO_PKG_VERSION")`);
its concrete value is irrelevant to every claim. -/
def diecutVersion : String := "0.0.0-model"

/-- The `_diecut` metadata section of `write_answers_with_source`. -/
def answersMeta (cfg : TemplateConfigModel)
    (template_source template_ref commit_sha : Option String) :
    List (String × TValue) :=
  [("template", TValue.tstr cfg.name)]
    ++ (match cfg.version with
        | some v => [("version", TValue.tstr v)]
        | none => [])
    ++ (match template_source with
        | some s => [("template_source", TValue.tstr s)]
        | none => [])
    ++ (match template_ref with
        | some s => [("template_ref", TValue.tstr s)]
        | none => [])
    ++ (match commit_sha with
        | some s => [("commit_sha", TValue.tstr s)]
        | none => [])
    ++ [("diecut_version", TValue.tstr diecutVersion)]

/-- The full TOML table serialized to the answers file. -/
def write_answers_table (cfg : TemplateConfigModel)
    (env : List (String × Value))
    (template_source template_ref commit_sha : Option String) : TValue :=
  .ttable
    [("_diecut", .ttable (answersMeta cfg template_source template_ref commit_sha)),
      ("variables", .ttable (buildVarsSection cfg env))]

def lookupT : List (String × TValue) → String → Option TValue
  | [], _ => none
  | (n, t) :: rest, q => if q = n then some t else lookupT rest q

/-! ## The computed-variable fixed point (`collect_variables`, phase 2)

A computed variable is modelled by its name, the list of variable names its
Tera expression references, and the function of the referenced values that the
evaluator computes.  The evaluator collaborator renders an expression
successfully iff every referenced variable is defined, and the result depends
only on the referenced values (spec sections 2 and 6); on failure the error is
tagged with the variable name (`DicecutError::ComputedEvaluation`). -/

/-- A computed variable: name, referenced variables, value function. -/
structure CompVar where
  name : String
  refs : List String
  fn : List Value → Value

/-- A variable environment: the `BTreeMap<String, Value>` viewed as a map. -/
abbrev VEnv := String → Option Value

def updateV (env : VEnv) (n : String) (v : Value) : VEnv :=
  fun q => if q = n then some v else env q

/-- Modelled from the evaluator collaborator: `evaluate_computed` succeeds iff
every referenced variable is present, returning the value function applied to
the referenced values, and otherwise fails with the variable's name. -/
def evalComputed (v : CompVar) (env : VEnv) : Except String Value :=
  if v.refs.all (fun r => (env r).isSome) then
    .ok (v.fn (v.refs.filterMap env))
  else .error v.name

/-- One round of the fixed-point loop: try every still-unresolved computed
variable in order against the environment so far, inserting successes
immediately and deferring failures to the pending list. -/
def roundStep : List CompVar → VEnv → List CompVar × VEnv
  | [], env => ([], env)
  | v :: rest, env =>
    match evalComputed v env with
    | .ok val => roundStep rest (updateV env v.name val)
    | .error _ => ((roundStep rest env).1.cons v, (roundStep rest env).2)

/-- The bounded fixed-point loop of `collect_variables` phase 2: up to the
given number of rounds; a round with no progress re-evaluates the first
pending variable to surface its error, and the loop otherwise continues on
the pending list. -/
def phase2Loop : Nat → List CompVar → VEnv → Except String VEnv
  | 0, _, env => .ok env
  | fuel + 1, remaining, env =>
    if remaining.isEmpty then .ok env
    else
      let step := roundStep remaining env
      if step.1.length = remaining.length then
        match step.1 with
        | [] => phase2Loop fuel step.1 step.2
        | w :: _ =>
          match evalComputed w step.2 with
          | .error e => .error e
          | .ok _ => phase2Loop fuel step.1 step.2
      else phase2Loop fuel step.1 step.2

/-- Phase 2 of `collect_variables`: resolve the computed variables against the
phase-1 environment, with at most N+1 rounds for N computed variables. -/
def collectComputed (L : List CompVar) (base : VEnv) : Except String VEnv :=
  phase2Loop (L.length + 1) L base

/-- The canonical solution of an acyclic computed-variable system: fold the
variables in an order where each one's references are already defined. -/
def canonEnv (base : VEnv) : List CompVar → VEnv
  | [] => base
  | v :: rest =>
    canonEnv (updateV base v.name (v.fn (v.refs.filterMap base))) rest

/-- Acyclicity witness: the list is ordered so that every variable's
references are defined by the base environment or by earlier variables. -/
def acyclicFrom (base : VEnv) : List CompVar → Bool
  | [] => true
  | v :: rest =>
    v.refs.all (fun r => (base r).isSome) &&
      acyclicFrom (updateV base v.name (v.fn (v.refs.filterMap base))) rest

/-! # Theorems -/

theorem lastSplitC_eq (sep : Char) :
    ∀ (cs st ex : List Char), lastSplitC sep cs = some (st, ex) →
      cs = st ++ sep :: ex := by
  intro cs
  induction cs with
  | nil => intro st ex h; simp [lastSplitC] at h
  | cons c cs ih =>
    intro st ex h
    cases hrec : lastSplitC sep cs with
    | some p =>
      obtain ⟨st', ex'⟩ := p
      have hstep : lastSplitC sep (c :: cs) = some (c :: st', ex') := by
        simp [lastSplitC, hrec]
      rw [hstep] at h
      injection h with h'
      injection h' with h1 h2
      subst h1; subst h2
      simp [ih st' ex' hrec]
    | none =>
      have hstep : lastSplitC sep (c :: cs)
          = if c = sep then some ([], cs) else none := by
        simp [lastSplitC, hrec]
      rw [hstep] at h
      by_cases hc : c = sep
      · rw [if_pos hc] at h
        injection h with h'
        injection h' with h1 h2
        subst h1; subst h2
        simp [hc]
      · rw [if_neg hc] at h
        cases h

/-- For a nonempty `kind` the artifact name always appends `"." ++ kind` to the
original file name, in every extension case of the Rust splitting rules. -/
theorem rustArtifactNameL_append (cs kind : List Char) (hk : kind ≠ []) :
    rustArtifactNameL cs kind = cs ++ '.' :: kind := by
  cases hsplit : lastSplitC '.' cs with
  | none =>
    have hex : rustExtension cs = none := by simp [rustExtension, hsplit]
    have hstem : rustFileStem cs = cs := by simp [rustFileStem, hsplit]
    simp [rustArtifactNameL, hex, rustWithExtension, hk, hstem]
  | some p =>
    obtain ⟨st, ex⟩ := p
    have hcs := lastSplitC_eq '.' cs st ex hsplit
    by_cases hst : st = []
    · have hex : rustExtension cs = none := by simp [rustExtension, hsplit, hst]
      have hstem : rustFileStem cs = cs := by simp [rustFileStem, hsplit, hst]
      simp [rustArtifactNameL, hex, rustWithExtension, hk, hstem]
    · have hex : rustExtension cs = some ex := by simp [rustExtension, hsplit, hst]
      have hstem : rustFileStem cs = st := by simp [rustFileStem, hsplit, hst]
      simp [rustArtifactNameL, hex, rustWithExtension, hstem]
      rw [hcs]
      simp

theorem string_mk_data (l : List Char) : (String.mk l).data = l := rfl

theorem rustPathArtifact_append (p kind : String) (hk : kind.toList ≠ []) :
    rustPathArtifact p kind = p ++ "." ++ kind := by
  have hdot : ("." : String).data = ['.'] := rfl
  have htgt : (p ++ "." ++ kind).data = p.data ++ '.' :: kind.data := by
    rw [String.data_append, String.data_append, hdot]
    simp
  cases hsplit : lastSplitC '/' p.toList with
  | none =>
    apply String.ext
    rw [htgt]
    simp only [rustPathArtifact, hsplit]
    rw [string_mk_data, rustArtifactNameL_append _ _ hk]
    rfl
  | some dn =>
    obtain ⟨d, n⟩ := dn
    have hp : p.toList = d ++ '/' :: n := lastSplitC_eq '/' p.toList d n hsplit
    apply String.ext
    rw [htgt]
    simp only [rustPathArtifact, hsplit]
    rw [string_mk_data, rustArtifactNameL_append _ _ hk]
    have hpd : p.data = d ++ '/' :: n := hp
    rw [hpd]
    simp

theorem mem_insertSorted (x a : String) :
    ∀ l : List String, a ∈ insertSorted x l ↔ a = x ∨ a ∈ l := by
  intro l
  induction l with
  | nil => simp [insertSorted]
  | cons y ys ih =>
    by_cases h : strLe x y = true
    · simp [insertSorted, h, List.mem_cons]
    · simp only [insertSorted, h]
      simp [List.mem_cons, ih]
      tauto

theorem mem_sortStrings (a : String) :
    ∀ l : List String, a ∈ sortStrings l ↔ a ∈ l := by
  intro l
  induction l with
  | nil => simp [sortStrings]
  | cons x xs ih => simp [sortStrings, mem_insertSorted, ih, List.mem_cons]

theorem mem_dedupStr (a : String) :
    ∀ l : List String, a ∈ dedupStr l ↔ a ∈ l := by
  intro l
  induction l with
  | nil => simp [dedupStr]
  | cons x xs ih =>
    by_cases hx : x ∈ xs
    · simp only [dedupStr, if_pos hx, ih, List.mem_cons]
      constructor
      · exact Or.inr
      · rintro (h | h)
        · exact h ▸ hx
        · exact h
    · simp [dedupStr, if_neg hx, List.mem_cons, ih]

/-! ### Frame lemmas for `apply_merge` -/

theorem applyOne_frame (hunks : String → String → String) (newT oldT : Tree)
    (fs fs' : FS) (r : FileMergeResult) (q : String)
    (hok : applyOne hunks newT oldT fs r = .ok fs') (hq : writesAt r ≠ some q) :
    fs' q = fs q := by
  cases hr : r.action <;>
    simp only [applyOne, hr] at hok <;>
    simp only [writesAt, hr] at hq
  case UpdateFromTemplate | AddFromTemplate =>
    cases hnew : treeGet newT r.rel_path with
    | some c =>
      rw [hnew] at hok
      injection hok with h
      subst h
      simp only [writeFS]
      rw [if_neg (by intro he; exact hq (by rw [he]))]
    | none => rw [hnew] at hok; cases hok
  case MarkForRemoval | Conflict =>
    injection hok with h
    subst h
    simp only [writeFS]
    rw [if_neg (by intro he; exact hq (by rw [he]))]
  case KeepUser | Unchanged =>
    injection hok with h
    subst h
    rfl

theorem apply_merge_frame (hunks : String → String → String) (newT oldT : Tree) :
    ∀ (rs : List FileMergeResult) (fs fs' : FS) (q : String),
      apply_merge hunks newT oldT fs rs = .ok fs' →
      (∀ r ∈ rs, writesAt r ≠ some q) → fs' q = fs q := by
  intro rs
  induction rs with
  | nil =>
    intro fs fs' q hok _
    injection hok with h
    subst h; rfl
  | cons r rs ih =>
    intro fs fs' q hok hnone
    simp only [apply_merge] at hok
    cases h1 : applyOne hunks newT oldT fs r with
    | ok fs1 =>
      rw [h1] at hok
      have hr := applyOne_frame hunks newT oldT fs fs1 r q h1
        (hnone r (List.mem_cons_self r rs))
      rw [ih fs1 fs' q hok (fun r' hr' => hnone r' (List.mem_cons_of_mem r hr')), hr]
    | error e => rw [h1] at hok; cases hok

/-! ### Claim theorems for the merge classification -/

theorem mem_three_way_merge (proj old new : Tree) (p : String) (a : MergeAction) :
    FileMergeResult.mk p a ∈ three_way_merge proj old new ↔
      (p ∈ mergePaths proj old new ∧
        a = classify (treeGet old p) (treeGet new p) (treeGet proj p) ∧
        a ≠ .Unchanged) := by
  unfold three_way_merge
  rw [List.mem_filter]
  constructor
  · rintro ⟨hmem, hne⟩
    rw [List.mem_map] at hmem
    obtain ⟨q, hq, he⟩ := hmem
    injection he with e1 e2
    subst e1
    exact ⟨hq, e2.symm, by simpa using hne⟩
  · rintro ⟨hp, ha, hne⟩
    refine ⟨List.mem_map.mpr ⟨p, hp, ?_⟩, by simpa using hne⟩
    rw [ha]

theorem classify_eq_spec_table (oldC newC projC : Option String) :
    classify oldC newC projC = classifySpecTable oldC newC projC := by
  cases oldC <;> cases newC <;> cases projC <;>
    simp only [classify, classifySpecTable]
  case some.some.some o n p =>
    by_cases hpo : p = o <;> by_cases hon : o = n <;> by_cases hpn : p = n <;>
      simp_all [eq_comm]

/-- C1: for every triple of trees, every path in the union of the three file
sets is classified exactly as the six-outcome decision table of the spec
prescribes (the `classifySpecTable` function written from the spec's words),
and every `Unchanged` path is omitted from the returned list. -/
theorem three_way_merge_decision_table (proj old new : Tree) (p : String)
    (a : MergeAction) :
    (classify (treeGet old p) (treeGet new p) (treeGet proj p)
        = classifySpecTable (treeGet old p) (treeGet new p) (treeGet proj p))
    ∧ (FileMergeResult.mk p a ∈ three_way_merge proj old new ↔
        (p ∈ mergePaths proj old new ∧
          a = classifySpecTable (treeGet old p) (treeGet new p) (treeGet proj p) ∧
          a ≠ .Unchanged)) := by
  constructor
  · exact classify_eq_spec_table _ _ _
  · rw [mem_three_way_merge, classify_eq_spec_table]

/-- C2: whenever the old-snapshot and new-snapshot states of a path agree
(both absent or byte-equal), the classification is `Unchanged` or `KeepUser`,
never a destructive or conflicting action, regardless of the project content;
consequently any entry for that path in the returned list carries `KeepUser`. -/
theorem merge_old_eq_new_keepuser (proj old new : Tree) (p : String)
    (hsame : treeGet old p = treeGet new p) :
    (classify (treeGet old p) (treeGet new p) (treeGet proj p) = .Unchanged ∨
      classify (treeGet old p) (treeGet new p) (treeGet proj p) = .KeepUser)
    ∧ ∀ a : MergeAction, FileMergeResult.mk p a ∈ three_way_merge proj old new →
        a = .KeepUser := by
  have hcl : classify (treeGet old p) (treeGet new p) (treeGet proj p) = .Unchanged ∨
      classify (treeGet old p) (treeGet new p) (treeGet proj p) = .KeepUser := by
    rw [← hsame]
    cases ho : treeGet old p with
    | none =>
      cases hp : treeGet proj p with
      | none => left; rfl
      | some c => right; rfl
    | some o =>
      cases hp : treeGet proj p with
      | none => right; simp [classify]
      | some c =>
        by_cases hc : c = o
        · left; simp [classify, hc]
        · right; simp [classify, hc]
  refine ⟨hcl, fun a hmem => ?_⟩
  rw [mem_three_way_merge] at hmem
  obtain ⟨_, ha, hne⟩ := hmem
  rcases hcl with h | h
  · exact absurd (ha.trans h) hne
  · exact ha.trans h

/-- Witness for C2 at a concrete input: old and new snapshots agree on file
`f`, the user changed it, and the classification is `KeepUser`. -/
theorem merge_old_eq_new_keepuser_witness :
    classify (treeGet [("f", "x")] "f") (treeGet [("f", "x")] "f")
        (treeGet [("f", "y")] "f") = .Unchanged ∨
      classify (treeGet [("f", "x")] "f") (treeGet [("f", "x")] "f")
        (treeGet [("f", "y")] "f") = .KeepUser :=
  (merge_old_eq_new_keepuser [("f", "y")] [("f", "x")] [("f", "x")] "f" rfl).1

/-! ### Artifact paths and the effects of `apply_merge` -/

theorem artifact_removing (p : String) :
    rustPathArtifact p "removing" = p ++ ".removing" := by
  rw [rustPathArtifact_append p "removing" (by decide), String.append_assoc]
  rfl

theorem artifact_rej (p : String) :
    rustPathArtifact p "rej" = p ++ ".rej" := by
  rw [rustPathArtifact_append p "rej" (by decide), String.append_assoc]
  rfl

theorem artifact_ne_self (p kind : String) (hk : kind.toList ≠ []) :
    rustPathArtifact p kind ≠ p := by
  rw [rustPathArtifact_append p kind hk]
  intro h
  have hd := congrArg String.data h
  rw [String.data_append, String.data_append] at hd
  have h2 := congrArg List.length hd
  simp only [List.length_append] at h2
  have h3 : ("." : String).data.length = 1 := by decide
  have h4 : kind.data.length ≠ 0 := by
    intro h0
    exact hk (List.length_eq_zero.mp h0)
  omega

theorem apply_merge_append (hunks : String → String → String) (newT oldT : Tree) :
    ∀ (l₁ l₂ : List FileMergeResult) (fs fs' : FS),
      apply_merge hunks newT oldT fs (l₁ ++ l₂) = .ok fs' →
      ∃ fs₁, apply_merge hunks newT oldT fs l₁ = .ok fs₁ ∧
        apply_merge hunks newT oldT fs₁ l₂ = .ok fs' := by
  intro l₁
  induction l₁ with
  | nil => intro l₂ fs fs' h; exact ⟨fs, rfl, h⟩
  | cons r rs ih =>
    intro l₂ fs fs' h
    simp only [List.cons_append, apply_merge] at h ⊢
    cases h1 : applyOne hunks newT oldT fs r with
    | ok fs1 =>
      rw [h1] at h
      exact ih l₂ fs1 fs' h
    | error e => rw [h1] at h; cases h

/-- Once the removal marker content is in place at `q`, it survives the rest of
the apply loop provided every later write at `q` is itself a removal marker. -/
theorem removal_marker_preserved (hunks : String → String → String)
    (newT oldT : Tree) :
    ∀ (rs : List FileMergeResult) (fs fs' : FS) (q : String),
      apply_merge hunks newT oldT fs rs = .ok fs' →
      (∀ r' ∈ rs, writesAt r' = some q → r'.action = .MarkForRemoval) →
      fs q = some removalMessage → fs' q = some removalMessage := by
  intro rs
  induction rs with
  | nil =>
    intro fs fs' q hok _ hfs
    injection hok with h; subst h; exact hfs
  | cons r rs ih =>
    intro fs fs' q hok hw hfs
    simp only [apply_merge] at hok
    cases h1 : applyOne hunks newT oldT fs r with
    | ok fs1 =>
      rw [h1] at hok
      refine ih fs1 fs' q hok (fun r' h' => hw r' (List.mem_cons_of_mem r h')) ?_
      by_cases hq : writesAt r = some q
      · have hact := hw r (List.mem_cons_self r rs) hq
        simp only [applyOne, hact] at h1
        injection h1 with h1
        subst h1
        simp only [writesAt, hact, Option.some.injEq] at hq
        simp [writeFS, hq]
      · rw [applyOne_frame hunks newT oldT fs fs1 r q h1 hq]
        exact hfs
    | error e => rw [h1] at hok; cases hok

/-- Once a conflict artifact for path `p` is in place at `q`, it survives the
rest of the loop provided nothing writes at `p` and every write at `q` is a
conflict artifact for the same path `p`. -/
theorem conflict_marker_preserved (hunks : String → String → String)
    (newT oldT : Tree) :
    ∀ (rs : List FileMergeResult) (fs fs' : FS) (p q : String) (u : Option String),
      apply_merge hunks newT oldT fs rs = .ok fs' →
      p ≠ q →
      (∀ r' ∈ rs, writesAt r' ≠ some p) →
      (∀ r' ∈ rs, writesAt r' = some q → r'.action = .Conflict ∧ r'.rel_path = p) →
      fs p = u → fs q = some (conflictContent hunks oldT newT u p) →
      fs' q = some (conflictContent hunks oldT newT u p) := by
  intro rs
  induction rs with
  | nil =>
    intro fs fs' p q u hok _ _ _ _ hq
    injection hok with h; subst h; exact hq
  | cons r rs ih =>
    intro fs fs' p q u hok hpq hnp hwq hp hq
    simp only [apply_merge] at hok
    cases h1 : applyOne hunks newT oldT fs r with
    | ok fs1 =>
      rw [h1] at hok
      have hp1 : fs1 p = u := by
        rw [applyOne_frame hunks newT oldT fs fs1 r p h1
          (hnp r (List.mem_cons_self r rs))]
        exact hp
      refine ih fs1 fs' p q u hok hpq
        (fun r' h' => hnp r' (List.mem_cons_of_mem r h'))
        (fun r' h' => hwq r' (List.mem_cons_of_mem r h')) hp1 ?_
      by_cases hqr : writesAt r = some q
      · obtain ⟨hact, hrel⟩ := hwq r (List.mem_cons_self r rs) hqr
        simp only [applyOne, hact] at h1
        injection h1 with h1
        subst h1
        simp only [writesAt, hact, Option.some.injEq] at hqr
        simp only [writeFS, if_pos hqr.symm]
        rw [hrel, hp]
      · rw [applyOne_frame hunks newT oldT fs fs1 r q h1 hqr]
        exact hq
    | error e => rw [h1] at hok; cases hok

/-- C3 (amended): `apply_merge` never writes at a `Conflict` or
`MarkForRemoval` path itself, so the project file there is unchanged provided
no other result's artifact path collides with it; the `MarkForRemoval`
artifact appends `".removing"` and holds the explanatory message; the
`Conflict` artifact appends `".rej"` and holds the conflict report built from
the diff renderings of (old→new) and (user→new); `KeepUser` and `Unchanged`
results cause no writes at all. -/
theorem apply_merge_effects (hunks : String → String → String)
    (newT oldT : Tree) (rs : List FileMergeResult) (fs fs' : FS)
    (r : FileMergeResult)
    (hok : apply_merge hunks newT oldT fs rs = .ok fs') (hr : r ∈ rs) :
    (rustPathArtifact r.rel_path "removing" = r.rel_path ++ ".removing"
      ∧ rustPathArtifact r.rel_path "rej" = r.rel_path ++ ".rej")
    ∧ ((r.action = .Conflict ∨ r.action = .MarkForRemoval) →
        (∀ r' ∈ rs, writesAt r' ≠ some r.rel_path) →
        fs' r.rel_path = fs r.rel_path)
    ∧ (r.action = .MarkForRemoval →
        (∀ r' ∈ rs, writesAt r' = some (rustPathArtifact r.rel_path "removing") →
          r'.action = .MarkForRemoval) →
        fs' (r.rel_path ++ ".removing") = some removalMessage)
    ∧ (r.action = .Conflict →
        (∀ r' ∈ rs, writesAt r' ≠ some r.rel_path) →
        (∀ r' ∈ rs, writesAt r' = some (rustPathArtifact r.rel_path "rej") →
          r'.action = .Conflict ∧ r'.rel_path = r.rel_path) →
        fs' (r.rel_path ++ ".rej") =
          some (conflictContent hunks oldT newT (fs r.rel_path) r.rel_path))
    ∧ ((r.action = .KeepUser ∨ r.action = .Unchanged) →
        ∀ g : FS, applyOne hunks newT oldT g r = .ok g) := by
  refine ⟨⟨artifact_removing _, artifact_rej _⟩, ?_, ?_, ?_, ?_⟩
  · intro _ hnone
    exact apply_merge_frame hunks newT oldT rs fs fs' r.rel_path hok hnone
  · intro hact hw
    obtain ⟨l₁, l₂, hsplit⟩ := List.append_of_mem hr
    subst hsplit
    obtain ⟨fs₁, hok₁, hok₂⟩ := apply_merge_append hunks newT oldT l₁ (r :: l₂) fs fs' hok
    simp only [apply_merge] at hok₂
    have h1 : applyOne hunks newT oldT fs₁ r =
        .ok (writeFS fs₁ (rustPathArtifact r.rel_path "removing") removalMessage) := by
      simp [applyOne, hact]
    rw [h1] at hok₂
    rw [← artifact_removing r.rel_path]
    refine removal_marker_preserved hunks newT oldT l₂ _ fs' _ hok₂ ?_ ?_
    · intro r' h' hq
      exact hw r' (by simp [List.mem_append, List.mem_cons, h']) hq
    · simp [writeFS]
  · intro hact hnone hw
    obtain ⟨l₁, l₂, hsplit⟩ := List.append_of_mem hr
    subst hsplit
    obtain ⟨fs₁, hok₁, hok₂⟩ := apply_merge_append hunks newT oldT l₁ (r :: l₂) fs fs' hok
    have hfs₁ : fs₁ r.rel_path = fs r.rel_path := by
      refine apply_merge_frame hunks newT oldT l₁ fs fs₁ r.rel_path hok₁ ?_
      intro r' h'
      exact hnone r' (by simp [List.mem_append, h'])
    simp only [apply_merge] at hok₂
    have h1 : applyOne hunks newT oldT fs₁ r =
        .ok (writeFS fs₁ (rustPathArtifact r.rel_path "rej")
          (conflictContent hunks oldT newT (fs₁ r.rel_path) r.rel_path)) := by
      simp [applyOne, hact]
    rw [h1] at hok₂
    rw [← artifact_rej r.rel_path]
    have hne : r.rel_path ≠ rustPathArtifact r.rel_path "rej" :=
      fun h => artifact_ne_self r.rel_path "rej" (by decide) h.symm
    refine conflict_marker_preserved hunks newT oldT l₂ _ fs'
      r.rel_path (rustPathArtifact r.rel_path "rej") (fs r.rel_path)
      hok₂ hne ?_ ?_ ?_ ?_
    · intro r' h'
      exact hnone r' (by simp [List.mem_append, List.mem_cons, h'])
    · intro r' h' hq
      exact hw r' (by simp [List.mem_append, List.mem_cons, h']) hq
    · simp only [writeFS, if_neg hne]
      exact hfs₁
    · simp [writeFS, hfs₁]
  · intro hact g
    rcases hact with h | h <;> simp [applyOne, h]

/-- C3 (counterexample): the claim as stated fails when an artifact path
collides with a classified project path.  The merge classifies `a.removing`
as a `Conflict`, yet applying the result list overwrites the project file at
`a.removing` with the removal marker written for path `a`. -/
theorem apply_merge_conflict_path_clobbered :
    FileMergeResult.mk "a.removing" .Conflict ∈
      three_way_merge [("a", "x"), ("a.removing", "user2")]
        [("a", "x"), ("a.removing", "orig")] [("a.removing", "tmpl")]
    ∧ (match apply_merge (fun _ _ => "") [("a.removing", "tmpl")]
          [("a", "x"), ("a.removing", "orig")]
          (treeGet [("a", "x"), ("a.removing", "user2")])
          (three_way_merge [("a", "x"), ("a.removing", "user2")]
            [("a", "x"), ("a.removing", "orig")] [("a.removing", "tmpl")]) with
        | .ok f => f "a.removing"
        | .error _ => none) = some removalMessage
    ∧ treeGet [("a", "x"), ("a.removing", "user2")] "a.removing" = some "user2"
    ∧ removalMessage ≠ "user2" := by
  refine ⟨by decide, ?_, by decide, by decide⟩
  decide

/-- Witness for the amended C3 at a concrete input: a single `Conflict`
result leaves the project file alone and writes the `.rej` sibling. -/
theorem apply_merge_effects_witness :
    (writeFS (treeGet [("f.txt", "user")]) (rustPathArtifact "f.txt" "rej")
        (conflictContent (fun _ _ => "h") [("f.txt", "old")] [("f.txt", "new")]
          (treeGet [("f.txt", "user")] "f.txt") "f.txt")) ("f.txt" ++ ".rej") =
      some (conflictContent (fun _ _ => "h") [("f.txt", "old")] [("f.txt", "new")]
        (treeGet [("f.txt", "user")] "f.txt") "f.txt") :=
  (apply_merge_effects (fun _ _ => "h") [("f.txt", "new")] [("f.txt", "old")]
      [FileMergeResult.mk "f.txt" .Conflict] (treeGet [("f.txt", "user")]) _
      (FileMergeResult.mk "f.txt" .Conflict) rfl (List.mem_singleton.mpr rfl)
    ).2.2.2.1 rfl (by decide) (by decide)

/-- C10: the answers file `.diecut-answers.toml` is filtered out of all three
collected file sets, so no merge result ever concerns it, and `apply_merge`
leaves the project's answers file untouched. -/
theorem merge_skips_answers_file (proj old new : Tree)
    (hunks : String → String → String) (fs fs' : FS)
    (hok : apply_merge hunks new old fs (three_way_merge proj old new) = .ok fs') :
    (∀ r ∈ three_way_merge proj old new, r.rel_path ≠ answersFileName)
    ∧ fs' answersFileName = fs answersFileName := by
  have hpaths : ∀ r ∈ three_way_merge proj old new, r.rel_path ≠ answersFileName := by
    intro r hr
    unfold three_way_merge at hr
    rw [List.mem_filter] at hr
    obtain ⟨hmem, _⟩ := hr
    rw [List.mem_map] at hmem
    obtain ⟨q, hq, he⟩ := hmem
    have hq' : q ∈ dedupStr (collect_files proj ++ collect_files old ++ collect_files new) := by
      rw [← mem_sortStrings]
      exact hq
    rw [mem_dedupStr] at hq'
    have hqa : q ≠ answersFileName := by
      rcases List.mem_append.mp hq' with h | h
      · rcases List.mem_append.mp h with h' | h'
        · exact (List.mem_filter.mp h').2 |> fun hh => by simpa using hh
        · exact (List.mem_filter.mp h').2 |> fun hh => by simpa using hh
      · exact (List.mem_filter.mp h).2 |> fun hh => by simpa using hh
    rw [← he]
    exact hqa
  refine ⟨hpaths, ?_⟩
  refine apply_merge_frame hunks new old _ fs fs' answersFileName hok ?_
  intro r hr
  have hrp := hpaths r hr
  have hsuffix : ∀ kind : String, kind.toList ≠ [] →
      ¬ (kind.data <:+ answersFileName.data) →
      rustPathArtifact r.rel_path kind ≠ answersFileName := by
    intro kind hk hns h
    rw [rustPathArtifact_append _ _ hk] at h
    have hd := congrArg String.data h
    rw [String.data_append] at hd
    exact hns (hd ▸ List.suffix_append _ _)
  cases hact : r.action <;> simp only [writesAt, hact]
  case UpdateFromTemplate | AddFromTemplate =>
    simp [hrp]
  case MarkForRemoval =>
    exact fun h => hsuffix "removing" (by decide) (by decide) (Option.some.inj h)
  case Conflict =>
    exact fun h => hsuffix "rej" (by decide) (by decide) (Option.some.inj h)
  case KeepUser | Unchanged =>
    simp

/-- Witness for C10 at a concrete input: the answers file differs across all
three trees, yet the merge ignores it and apply leaves it untouched. -/
theorem merge_skips_answers_file_witness :
    (∀ r ∈ three_way_merge [(".diecut-answers.toml", "p")]
        [(".diecut-answers.toml", "o")] [(".diecut-answers.toml", "n")],
      r.rel_path ≠ answersFileName)
    ∧ treeGet [(".diecut-answers.toml", "p")] answersFileName =
        treeGet [(".diecut-answers.toml", "p")] answersFileName :=
  ⟨(merge_skips_answers_file [(".diecut-answers.toml", "p")]
      [(".diecut-answers.toml", "o")] [(".diecut-answers.toml", "n")]
      (fun _ _ => "") (treeGet [(".diecut-answers.toml", "p")]) _ rfl).1,
    rfl⟩

/-! ### The walker: exclusion, suffix stripping, idempotent execution -/

theorem evaluate_conditional_files_spec (whenEval : String → Except String Bool) :
    ∀ (rules : List (String × String)) (condPats : List String),
      evaluate_conditional_files whenEval rules = .ok condPats →
      condPats = rules.filterMap (fun pw =>
        match whenEval pw.2 with
        | .ok false => some pw.1
        | _ => none) := by
  intro rules
  induction rules with
  | nil =>
    intro condPats h
    injection h with h
    simp [← h]
  | cons pw rest ih =>
    intro condPats h
    obtain ⟨pat, w⟩ := pw
    simp only [evaluate_conditional_files] at h
    cases hw : whenEval w with
    | error e => rw [hw] at h; cases h
    | ok b =>
      rw [hw] at h
      cases hrest : evaluate_conditional_files whenEval rest with
      | error e => rw [hrest] at h; cases h
      | ok others =>
        rw [hrest] at h
        injection h with h
        subst h
        cases b <;> simp [List.filterMap_cons, hw, ih others hrest]

theorem planEntries_filterMap (P : WalkerParams) (condPats : List String) :
    ∀ (entries : List TemplateEntry) (files : List PlannedFile),
      planEntries P condPats entries = .ok files →
      files = entries.filterMap (fun e =>
        match planOne P condPats e with
        | .ok (some pf) => some pf
        | _ => none) := by
  intro entries
  induction entries with
  | nil =>
    intro files h
    injection h with h
    simp [← h]
  | cons e rest ih =>
    intro files h
    simp only [planEntries] at h
    cases h1 : planOne P condPats e with
    | error err => rw [h1] at h; cases h
    | ok of =>
      rw [h1] at h
      cases of with
      | none => simp [List.filterMap_cons, h1, ih files h]
      | some pf =>
        cases h2 : planEntries P condPats rest with
        | error err => rw [h2] at h; cases h
        | ok pfs =>
          rw [h2] at h
          injection h with h
          subst h
          simp [List.filterMap_cons, h1, ih pfs h2]

/-- C4: the static exclude set is tested against the unrendered relative path
and the conditional set — built from the patterns whose `when` evaluates to
false — against the rendered relative path; a walked entry matching either set
is dropped from the plan. -/
theorem plan_render_exclusion (P : WalkerParams) (entries : List TemplateEntry)
    (condPats : List String) (files : List PlannedFile)
    (hc : evaluate_conditional_files P.whenEval P.condRules = .ok condPats)
    (hok : planEntries P condPats entries = .ok files) :
    (condPats = P.condRules.filterMap (fun pw =>
      match P.whenEval pw.2 with
      | .ok false => some pw.1
      | _ => none))
    ∧ (files = entries.filterMap (fun e =>
        match planOne P condPats e with
        | .ok (some pf) => some pf
        | _ => none))
    ∧ (∀ e : TemplateEntry, ∀ rcomps : List String,
        render_relative_path P.renderComp P.suffix e.relComponents = .ok rcomps →
        (P.globMatch P.excludePats (joinPath e.relComponents) = true
          ∨ P.globMatch condPats (joinPath rcomps) = true) →
        planOne P condPats e = .ok none) := by
  refine ⟨evaluate_conditional_files_spec P.whenEval P.condRules condPats hc,
    planEntries_filterMap P condPats entries files hok, ?_⟩
  intro e rcomps hrend hmatch
  unfold planOne
  by_cases hexcl : P.globMatch P.excludePats (joinPath e.relComponents) = true
  · simp [hexcl]
  · rcases hmatch with h | h
    · exact absurd h hexcl
    · simp [hexcl, hrend, h]

/-- Witness for C4 at a concrete input: the file `{{name}}.txt` renders to
`hello.txt`; its `when` condition is false, so the literal conditional pattern
`hello.txt` — which never matches the unrendered name — excludes it. -/
theorem plan_render_exclusion_witness :
    evaluate_conditional_files
        (fun w => if w = "flag" then .ok false else .ok true)
        [("hello.txt", "flag")] = .ok ["hello.txt"]
    ∧ planEntries
        (WalkerParams.mk (fun pats s => pats.contains s)
          (fun w => if w = "flag" then .ok false else .ok true)
          (fun s => .ok (if s = "{{name}}.txt" then "hello.txt" else s))
          (fun c => .ok c) (fun _ => false) "" [] [] [("hello.txt", "flag")])
        ["hello.txt"] [TemplateEntry.mk ["{{name}}.txt"] false "hi"] = .ok []
    ∧ ([] : List PlannedFile) =
        [TemplateEntry.mk ["{{name}}.txt"] false "hi"].filterMap (fun e =>
          match planOne
            (WalkerParams.mk (fun pats s => pats.contains s)
              (fun w => if w = "flag" then .ok false else .ok true)
              (fun s => .ok (if s = "{{name}}.txt" then "hello.txt" else s))
              (fun c => .ok c) (fun _ => false) "" [] [] [("hello.txt", "flag")])
            ["hello.txt"] e with
          | .ok (some pf) => some pf
          | _ => none) :=
  ⟨rfl, rfl,
    (plan_render_exclusion
      (WalkerParams.mk (fun pats s => pats.contains s)
        (fun w => if w = "flag" then .ok false else .ok true)
        (fun s => .ok (if s = "{{name}}.txt" then "hello.txt" else s))
        (fun c => .ok c) (fun _ => false) "" [] [] [("hello.txt", "flag")])
      [TemplateEntry.mk ["{{name}}.txt"] false "hi"] ["hello.txt"] []
      rfl rfl).2.1⟩

/-- C6: at the concrete input `dir.tera/f.txt.tera` with suffix `.tera` and an
identity component renderer, the code strips the suffix from the directory
component as well, producing `dir/f.txt` instead of the `dir.tera/f.txt`
required by the claim (and by the code's own comment, which says the strip
applies to the final component). -/
theorem render_relative_path_strips_directory_suffix :
    render_relative_path (fun s => .ok s) ".tera" ["dir.tera", "f.txt.tera"]
        = .ok ["dir", "f.txt"]
    ∧ (["dir", "f.txt"] : List String) ≠ ["dir.tera", "f.txt"] := by
  constructor
  · rfl
  · decide

theorem execute_plan_lookup :
    ∀ (files : List PlannedFile) (fs : FS) (q : String),
      execute_plan files fs q =
        match lastWriteVal files q with
        | some c => some c
        | none => fs q := by
  intro files
  induction files with
  | nil => intro fs q; rfl
  | cons pf rest ih =>
    intro fs q
    show execute_plan rest (writeFS fs (joinPath pf.relative_path) pf.content) q = _
    rw [ih]
    simp only [lastWriteVal]
    cases lastWriteVal rest q with
    | some c => rfl
    | none =>
      simp only [writeFS]
      by_cases hq : joinPath pf.relative_path = q
      · rw [if_pos hq, if_pos hq.symm]
      · rw [if_neg hq, if_neg (fun h => hq h.symm)]

/-- C7: planning is a pure function of the template and environment, so a
second run produces the same plan, and executing the same plan twice leaves
every path of the output exactly as after the first execution. -/
theorem plan_execute_idempotent (P : WalkerParams)
    (entries : List TemplateEntry) (files : List PlannedFile) (fs : FS)
    (hok : plan_render P entries = .ok files) :
    plan_render P entries = .ok files
    ∧ ∀ q : String,
        execute_plan files (execute_plan files fs) q = execute_plan files fs q := by
  refine ⟨hok, fun q => ?_⟩
  rw [execute_plan_lookup files (execute_plan files fs) q,
    execute_plan_lookup files fs q]
  cases lastWriteVal files q with
  | some c => rfl
  | none => rfl

/-- Witness for C7 at a concrete input: a one-file template executed twice
into the same output leaves the file identical. -/
theorem plan_execute_idempotent_witness :
    execute_plan [PlannedFile.mk ["f"] "hi" false]
        (execute_plan [PlannedFile.mk ["f"] "hi" false] (fun _ => none)) "f" =
      execute_plan [PlannedFile.mk ["f"] "hi" false] (fun _ => none) "f" :=
  (plan_execute_idempotent
    (WalkerParams.mk (fun _ _ => false) (fun _ => .ok true) (fun s => .ok s)
      (fun _ => .ok "hi") (fun _ => false) "" [] [] [])
    [TemplateEntry.mk ["f"] false "x"] [PlannedFile.mk ["f"] "hi" false]
    (fun _ => none) rfl).2 "f"

/-! ### Float overrides and answers persistence -/

/-- C8 (counterexample): the override string `NaN` parses as a float, and
`serde_json::to_value` maps the non-finite value to `Null` (returning `Ok`),
so the `unwrap_or` fallback never fires: the environment value is `Null`, not
the raw string `"NaN"` that the claim requires. -/
theorem parse_override_nan_is_null :
    parse_override "NaN" (VariableConfig.mk .float false) = .vnull
    ∧ Value.vnull ≠ .vstr "NaN" :=
  ⟨rfl, fun h => Value.noConfusion h⟩

/-- C8 (amended): a float-kind override is parsed as a float, falling back to
the raw override string only when parsing fails; a parsed finite float becomes
a number, while a parsed non-finite float (such as `NaN` or `inf`) is
serialized by serde_json as `Null` — never a corrupted number, but also not
the raw string. -/
theorem parse_override_float_spec (s : String) (var : VariableConfig)
    (hf : var.var_type = .float) :
    (parseF64 s = none → parse_override s var = .vstr s)
    ∧ (∀ m e : Int, parseF64 s = some (.finite m e) →
        parse_override s var = .vnum (.jfloat m e))
    ∧ (∀ f : F64, parseF64 s = some f → f.isFinite = false →
        parse_override s var = .vnull) := by
  refine ⟨?_, ?_, ?_⟩
  · intro h
    simp [parse_override, hf, h]
  · intro m e h
    simp [parse_override, hf, h, serdeToValueOk]
  · intro f h hfin
    cases f with
    | finite m e => simp [F64.isFinite] at hfin
    | nan => simp [parse_override, hf, h, serdeToValueOk]
    | inf => simp [parse_override, hf, h, serdeToValueOk]
    | neginf => simp [parse_override, hf, h, serdeToValueOk]

/-- Witness for the amended C8 at the concrete inputs `NaN` (parses
non-finite, becomes `Null`) and `not-a-float` (does not parse, stays the raw
string). -/
theorem parse_override_float_spec_witness :
    (parseF64 "not-a-float" = none →
      parse_override "not-a-float" (VariableConfig.mk .float false) =
        .vstr "not-a-float")
    ∧ (∀ f : F64, parseF64 "NaN" = some f → f.isFinite = false →
        parse_override "NaN" (VariableConfig.mk .float false) = .vnull) :=
  ⟨(parse_override_float_spec "not-a-float" (VariableConfig.mk .float false) rfl).1,
    (parse_override_float_spec "NaN" (VariableConfig.mk .float false) rfl).2.2⟩

theorem buildVarsSection_secret_independent (cfg : TemplateConfigModel) :
    ∀ (env₁ env₂ : List (String × Value)),
      List.Forall₂ (fun a b : String × Value =>
        a.1 = b.1 ∧ (isSecret cfg a.1 = false → a.2 = b.2)) env₁ env₂ →
      buildVarsSection cfg env₁ = buildVarsSection cfg env₂ := by
  intro env₁
  induction env₁ with
  | nil =>
    intro env₂ h
    cases h
    rfl
  | cons nv rest ih =>
    intro env₂ h
    cases h with
    | cons hab htail =>
      rename_i b l₂
      obtain ⟨n, v⟩ := nv
      obtain ⟨n₂, v₂⟩ := b
      obtain ⟨hn, hv⟩ := hab
      simp only at hn hv
      subst hn
      by_cases hsec : isSecret cfg n = true
      · simp only [buildVarsSection, if_pos hsec]
        exact ih l₂ htail
      · have hfalse : isSecret cfg n = false := by
          cases h : isSecret cfg n
          · rfl
          · exact absurd h hsec
        rw [hv hfalse]
        simp only [buildVarsSection, if_neg hsec]
        cases tera_value_to_toml v₂ with
        | none => exact ih l₂ htail
        | some t => rw [ih l₂ htail]

theorem buildVarsSection_no_secret (cfg : TemplateConfigModel) :
    ∀ (env : List (String × Value)) (n : String), isSecret cfg n = true →
      lookupT (buildVarsSection cfg env) n = none := by
  intro env
  induction env with
  | nil => intro n _; rfl
  | cons nv rest ih =>
    intro n hn
    obtain ⟨m, v⟩ := nv
    by_cases hsec : isSecret cfg m = true
    · simp only [buildVarsSection, if_pos hsec]
      exact ih n hn
    · simp only [buildVarsSection, if_neg hsec]
      cases tera_value_to_toml v with
      | none => exact ih n hn
      | some t =>
        simp only [lookupT]
        have hne : n ≠ m := by
          intro he
          subst he
          exact hsec hn
        rw [if_neg hne]
        exact ih n hn

/-- C9: two environments with the same variables in the same order that agree
on every non-secret variable produce identical answers tables — the persisted
bytes cannot depend on secret values — and no secret-flagged variable name
ever appears in the persisted variables section. -/
theorem write_answers_secret_independent (cfg : TemplateConfigModel)
    (env₁ env₂ : List (String × Value))
    (template_source template_ref commit_sha : Option String)
    (h : List.Forall₂ (fun a b : String × Value =>
      a.1 = b.1 ∧ (isSecret cfg a.1 = false → a.2 = b.2)) env₁ env₂) :
    write_answers_table cfg env₁ template_source template_ref commit_sha =
      write_answers_table cfg env₂ template_source template_ref commit_sha
    ∧ ∀ n : String, isSecret cfg n = true →
        lookupT (buildVarsSection cfg env₁) n = none := by
  constructor
  · unfold write_answers_table
    rw [buildVarsSection_secret_independent cfg env₁ env₂ h]
  · exact buildVarsSection_no_secret cfg env₁

/-- Witness for C9 at a concrete input: two environments differing only in
the secret variable `token` write the same table, which omits `token`. -/
theorem write_answers_secret_independent_witness :
    write_answers_table
        (TemplateConfigModel.mk "t" none
          [("token", VariableConfig.mk .string true)] ".diecut-answers.toml")
        [("name", .vstr "a"), ("token", .vstr "s1")] none none none =
      write_answers_table
        (TemplateConfigModel.mk "t" none
          [("token", VariableConfig.mk .string true)] ".diecut-answers.toml")
        [("name", .vstr "a"), ("token", .vstr "s2")] none none none :=
  (write_answers_secret_independent
    (TemplateConfigModel.mk "t" none
      [("token", VariableConfig.mk .string true)] ".diecut-answers.toml")
    [("name", .vstr "a"), ("token", .vstr "s1")]
    [("name", .vstr "a"), ("token", .vstr "s2")] none none none
    (List.Forall₂.cons ⟨rfl, fun _ => rfl⟩
      (List.Forall₂.cons ⟨rfl, fun hsec => absurd hsec (by decide)⟩
        List.Forall₂.nil))).1

/-! ### The computed-variable fixed point -/

theorem canonEnv_not_mem :
    ∀ (T : List CompVar) (base : VEnv) (n : String),
      n ∉ T.map CompVar.name → canonEnv base T n = base n := by
  intro T
  induction T with
  | nil => intro base n _; rfl
  | cons t T ih =>
    intro base n hn
    simp only [List.map_cons, List.mem_cons] at hn
    push_neg at hn
    show canonEnv (updateV base t.name (t.fn (t.refs.filterMap base))) T n = base n
    rw [ih _ n hn.2]
    simp [updateV, hn.1]

theorem canonEnv_isSome :
    ∀ (T : List CompVar) (base : VEnv) (q : String),
      (canonEnv base T q).isSome = true ↔
        (base q).isSome = true ∨ q ∈ T.map CompVar.name := by
  intro T
  induction T with
  | nil => intro base q; simp [canonEnv]
  | cons t T ih =>
    intro base q
    show (canonEnv (updateV base t.name (t.fn (t.refs.filterMap base))) T q).isSome = true ↔ _
    rw [ih]
    simp only [List.map_cons, List.mem_cons]
    by_cases hq : q = t.name
    · simp [updateV, hq]
    · simp [updateV, hq]

theorem canonEnv_spec :
    ∀ (T : List CompVar) (base : VEnv),
      (T.map CompVar.name).Nodup →
      (∀ v ∈ T, base v.name = none) →
      acyclicFrom base T = true →
      ∀ v ∈ T, canonEnv base T v.name =
        some (v.fn (v.refs.filterMap (canonEnv base T))) := by
  intro T
  induction T with
  | nil => intro base _ _ _ v hv; exact absurd hv (List.not_mem_nil v)
  | cons t T ih =>
    intro base hnd hbase hacy v hv
    have hnd1 : t.name ∉ T.map CompVar.name := by
      simp only [List.map_cons, List.nodup_cons] at hnd
      exact hnd.1
    have hnd2 : (T.map CompVar.name).Nodup := by
      simp only [List.map_cons, List.nodup_cons] at hnd
      exact hnd.2
    simp only [acyclicFrom, Bool.and_eq_true] at hacy
    obtain ⟨hrefs, hacy'⟩ := hacy
    have hbase' : ∀ w ∈ T, updateV base t.name (t.fn (t.refs.filterMap base)) w.name = none := by
      intro w hw
      have hwn : w.name ≠ t.name := by
        intro he
        exact hnd1 (he ▸ List.mem_map_of_mem CompVar.name hw)
      simp only [updateV, if_neg hwn]
      exact hbase w (List.mem_cons_of_mem t hw)
    rcases List.mem_cons.mp hv with he | hvT
    · subst he
      show canonEnv (updateV base v.name (v.fn (v.refs.filterMap base))) T v.name = _
      rw [canonEnv_not_mem T _ v.name hnd1]
      have hupd : updateV base v.name (v.fn (v.refs.filterMap base)) v.name
          = some (v.fn (v.refs.filterMap base)) := by
        simp [updateV]
      rw [hupd]
      have hmaps : v.refs.filterMap base
          = v.refs.filterMap (canonEnv base (v :: T)) := by
        apply List.filterMap_congr
        intro r hr
        have hrs : (base r).isSome = true := by
          rw [List.all_eq_true] at hrefs
          exact hrefs r hr
        have hrn : r ≠ v.name := by
          intro he2
          rw [he2, hbase v (List.mem_cons_self v T)] at hrs
          cases hrs
        have hrT : r ∉ T.map CompVar.name := by
          intro hmem
          obtain ⟨w, hw, hwn⟩ := List.mem_map.mp hmem
          rw [← hwn, hbase w (List.mem_cons_of_mem v hw)] at hrs
          cases hrs
        show base r = canonEnv (updateV base v.name (v.fn (v.refs.filterMap base))) T r
        rw [canonEnv_not_mem T _ r hrT]
        simp [updateV, hrn]
      rw [hmaps]
    · show canonEnv (updateV base t.name (t.fn (t.refs.filterMap base))) T v.name = _
      exact ih _ hnd2 hbase' hacy' v hvT

theorem roundStep_cons_ok (v : CompVar) (rest : List CompVar) (env : VEnv)
    (val : Value) (he : evalComputed v env = .ok val) :
    roundStep (v :: rest) env = roundStep rest (updateV env v.name val) := by
  simp [roundStep, he]

theorem roundStep_cons_err (v : CompVar) (rest : List CompVar) (env : VEnv)
    (e : String) (he : evalComputed v env = .error e) :
    roundStep (v :: rest) env
      = (v :: (roundStep rest env).1, (roundStep rest env).2) := by
  simp [roundStep, he]

theorem roundStep_pending_subset :
    ∀ (rem : List CompVar) (env : VEnv) (v : CompVar),
      v ∈ (roundStep rem env).1 → v ∈ rem := by
  intro rem
  induction rem with
  | nil => intro env v h; exact absurd h (List.not_mem_nil v)
  | cons w rest ih =>
    intro env v h
    cases he : evalComputed w env with
    | ok val =>
      rw [roundStep_cons_ok w rest env val he] at h
      exact List.mem_cons_of_mem w (ih _ v h)
    | error e =>
      rw [roundStep_cons_err w rest env e he] at h
      rcases List.mem_cons.mp h with h1 | h1
      · exact h1 ▸ List.mem_cons_self w rest
      · exact List.mem_cons_of_mem w (ih _ v h1)

theorem evalComputed_ok_iff (v : CompVar) (env : VEnv) (val : Value)
    (he : evalComputed v env = .ok val) :
    v.refs.all (fun r => (env r).isSome) = true
      ∧ val = v.fn (v.refs.filterMap env) := by
  by_cases hall : v.refs.all (fun r => (env r).isSome) = true
  · refine ⟨hall, ?_⟩
    unfold evalComputed at he
    rw [if_pos hall] at he
    injection he with he
    exact he.symm
  · exfalso
    unfold evalComputed at he
    rw [if_neg hall] at he
    exact Except.noConfusion he

theorem evalComputed_error_name (v : CompVar) (env : VEnv) (e : String)
    (he : evalComputed v env = .error e) : e = v.name := by
  by_cases hall : v.refs.all (fun r => (env r).isSome) = true
  · unfold evalComputed at he
    rw [if_pos hall] at he
    exact Except.noConfusion he
  · unfold evalComputed at he
    rw [if_neg hall] at he
    injection he with he
    exact he.symm

/-- The round-pass invariant: starting from an environment that is the
canonical solution away from the still-unresolved names (and undefined on
them), one round resolves variables to their canonical values, the pending
list is a sublist of the input, and any variable whose references were all
present at the start of the round is resolved. -/
theorem roundStep_spec (base : VEnv) (T : List CompVar)
    (hndT : (T.map CompVar.name).Nodup)
    (hbase : ∀ v ∈ T, base v.name = none)
    (hacy : acyclicFrom base T = true) :
    ∀ (rem : List CompVar) (S : List String) (env : VEnv),
      (∀ v ∈ rem, v ∈ T) →
      ((S ++ rem.map CompVar.name).Nodup) →
      (∀ q, env q =
        if q ∈ S ∨ q ∈ rem.map CompVar.name then none else canonEnv base T q) →
      (roundStep rem env).1.Sublist rem ∧
      (∀ q, (roundStep rem env).2 q =
        if q ∈ S ∨ q ∈ (roundStep rem env).1.map CompVar.name then none
        else canonEnv base T q) ∧
      (∀ v ∈ rem, (∀ r ∈ v.refs, (env r).isSome = true) →
        v ∉ (roundStep rem env).1) := by
  intro rem
  induction rem with
  | nil =>
    intro S env _ _ henv
    exact ⟨List.Sublist.refl [], henv, fun v hv _ => absurd hv (List.not_mem_nil v)⟩
  | cons v rest ih =>
    intro S env hsub hnd henv
    have hvT : v ∈ T := hsub v (List.mem_cons_self v rest)
    have hsub' : ∀ w ∈ rest, w ∈ T := fun w hw => hsub w (List.mem_cons_of_mem v hw)
    rw [List.nodup_append] at hnd
    obtain ⟨hndS, hndR, hdisj⟩ := hnd
    simp only [List.map_cons, List.nodup_cons] at hndR
    obtain ⟨hvrest, hndrest⟩ := hndR
    have hvS : v.name ∉ S := by
      intro hin
      exact hdisj hin (by simp)
    cases he : evalComputed v env with
    | ok val =>
      obtain ⟨hall, hval⟩ := evalComputed_ok_iff v env val he
      have hnd' : (S ++ rest.map CompVar.name).Nodup := by
        rw [List.nodup_append]
        refine ⟨hndS, hndrest, ?_⟩
        intro a haS haR
        exact hdisj haS (by simp [haR])
      have hmaps : v.refs.filterMap env = v.refs.filterMap (canonEnv base T) := by
        apply List.filterMap_congr
        intro r hr
        have hsome : (env r).isSome = true := by
          rw [List.all_eq_true] at hall
          exact hall r hr
        have hcond : ¬ (r ∈ S ∨ r ∈ (v :: rest).map CompVar.name) := by
          intro hc
          rw [henv r, if_pos hc] at hsome
          cases hsome
        rw [henv r, if_neg hcond]
      have henv₁ : ∀ q, updateV env v.name val q =
          if q ∈ S ∨ q ∈ rest.map CompVar.name then none
          else canonEnv base T q := by
        intro q
        by_cases hq : q = v.name
        · subst hq
          have hcond : ¬ (v.name ∈ S ∨ v.name ∈ rest.map CompVar.name) := by
            intro hc
            rcases hc with hc | hc
            · exact hvS hc
            · exact hvrest hc
          rw [if_neg hcond]
          have hcanon := canonEnv_spec T base hndT hbase hacy v hvT
          have hupd : updateV env v.name val v.name = some val := by
            simp [updateV]
          rw [hupd, hcanon, hval, hmaps]
        · simp only [updateV, if_neg hq]
          rw [henv q]
          apply if_congr _ rfl rfl
          simp only [List.map_cons, List.mem_cons]
          constructor
          · rintro (h | h | h)
            · exact Or.inl h
            · exact absurd h hq
            · exact Or.inr h
          · rintro (h | h)
            · exact Or.inl h
            · exact Or.inr (Or.inr h)
      rw [roundStep_cons_ok v rest env val he]
      obtain ⟨hsl, henv', hres⟩ := ih S (updateV env v.name val) hsub' hnd' henv₁
      refine ⟨hsl.cons v, henv', ?_⟩
      intro w hw hwrefs
      rcases List.mem_cons.mp hw with h1 | h1
      · subst h1
        intro hmem
        have hwr : w ∈ rest := roundStep_pending_subset rest _ w hmem
        exact hvrest (List.mem_map_of_mem CompVar.name hwr)
      · refine hres w h1 ?_
        intro r hr
        by_cases hrq : r = v.name
        · simp [updateV, hrq]
        · simp only [updateV, if_neg hrq]
          exact hwrefs r hr
    | error e =>
      rw [roundStep_cons_err v rest env e he]
      have hnd' : ((S ++ [v.name]) ++ rest.map CompVar.name).Nodup := by
        rw [List.nodup_append]
        refine ⟨?_, hndrest, ?_⟩
        · rw [List.nodup_append]
          refine ⟨hndS, List.nodup_singleton v.name, ?_⟩
          intro a haS haV
          rw [List.mem_singleton] at haV
          subst haV
          exact hvS haS
        · intro a haSV haR
          rcases List.mem_append.mp haSV with h1 | h1
          · exact hdisj h1 (by simp [haR])
          · rw [List.mem_singleton] at h1
            subst h1
            exact hvrest haR
      have henv' : ∀ q, env q =
          if q ∈ S ++ [v.name] ∨ q ∈ rest.map CompVar.name then none
          else canonEnv base T q := by
        intro q
        rw [henv q]
        apply if_congr _ rfl rfl
        simp only [List.mem_append, List.mem_singleton, List.map_cons,
          List.mem_cons]
        tauto
      obtain ⟨hsl, henv₂, hres⟩ := ih (S ++ [v.name]) env hsub' hnd' henv'
      refine ⟨hsl.cons₂ v, ?_, ?_⟩
      · intro q
        rw [henv₂ q]
        apply if_congr _ rfl rfl
        simp only [List.mem_append, List.mem_singleton, List.map_cons,
          List.mem_cons]
        tauto
      · intro w hw hwrefs
        rcases List.mem_cons.mp hw with h1 | h1
        · subst h1
          exfalso
          have hall : w.refs.all (fun r => (env r).isSome) = true := by
            rw [List.all_eq_true]
            intro r hr
            exact hwrefs r hr
          have : evalComputed w env = .ok (w.fn (w.refs.filterMap env)) := by
            unfold evalComputed
            rw [if_pos hall]
          rw [this] at he
          exact Except.noConfusion he
        · intro hmem
          rcases List.mem_cons.mp hmem with h2 | h2
          · subst h2
            exact hvrest (List.mem_map_of_mem CompVar.name h1)
          · exact hres w h1 hwrefs h2

/-- In an acyclic system, some still-unresolved variable has all of its
references already defined: the one earliest in the topological order. -/
theorem exists_ready :
    ∀ (T : List CompVar) (base : VEnv),
      (T.map CompVar.name).Nodup →
      (∀ v ∈ T, base v.name = none) →
      acyclicFrom base T = true →
      ∀ (rem : List CompVar) (env : VEnv),
        (∀ v ∈ rem, v ∈ T) → rem ≠ [] →
        (∀ q, env q =
          if q ∈ rem.map CompVar.name then none else canonEnv base T q) →
        ∃ v, v ∈ rem ∧ ∀ r ∈ v.refs, (env r).isSome = true := by
  intro T
  induction T with
  | nil =>
    intro base _ _ _ rem env hsub hne _
    cases rem with
    | nil => exact absurd rfl hne
    | cons v rest => exact absurd (hsub v (List.mem_cons_self v rest)) (List.not_mem_nil v)
  | cons t T ih =>
    intro base hnd hbase hacy rem env hsub hne henv
    simp only [acyclicFrom, Bool.and_eq_true] at hacy
    obtain ⟨hrefs, hacy'⟩ := hacy
    simp only [List.map_cons, List.nodup_cons] at hnd
    obtain ⟨hnd1, hnd2⟩ := hnd
    by_cases ht : t ∈ rem
    · refine ⟨t, ht, ?_⟩
      intro r hr
      have hbs : (base r).isSome = true := by
        rw [List.all_eq_true] at hrefs
        exact hrefs r hr
      have hrnot : r ∉ rem.map CompVar.name := by
        intro hmem
        obtain ⟨w, hw, hwn⟩ := List.mem_map.mp hmem
        rw [← hwn, hbase w (hsub w hw)] at hbs
        cases hbs
      rw [henv r, if_neg hrnot, canonEnv_isSome]
      exact Or.inl hbs
    · have hbase' : ∀ v ∈ T,
          updateV base t.name (t.fn (t.refs.filterMap base)) v.name = none := by
        intro w hw
        have hwn : w.name ≠ t.name := by
          intro he
          exact hnd1 (he ▸ List.mem_map_of_mem CompVar.name hw)
        simp only [updateV, if_neg hwn]
        exact hbase w (List.mem_cons_of_mem t hw)
      have hsub' : ∀ v ∈ rem, v ∈ T := by
        intro w hw
        rcases List.mem_cons.mp (hsub w hw) with h | h
        · subst h; exact absurd hw ht
        · exact h
      exact ih _ hnd2 hbase' hacy' rem env hsub' hne henv

theorem phase2Loop_succ_empty (fuel : Nat) (env : VEnv) :
    phase2Loop (fuel + 1) [] env = .ok env := rfl

theorem phase2Loop_succ_eq (fuel : Nat) (rem : List CompVar) (env : VEnv)
    (hne : rem ≠ []) :
    phase2Loop (fuel + 1) rem env =
      if (roundStep rem env).1.length = rem.length then
        match (roundStep rem env).1 with
        | [] => phase2Loop fuel (roundStep rem env).1 (roundStep rem env).2
        | w :: _ =>
          match evalComputed w (roundStep rem env).2 with
          | .error e => .error e
          | .ok _ => phase2Loop fuel (roundStep rem env).1 (roundStep rem env).2
      else phase2Loop fuel (roundStep rem env).1 (roundStep rem env).2 := by
  rcases rem with _ | ⟨v, rest⟩
  · exact absurd rfl hne
  · rfl

theorem phase2Loop_succ_progress (fuel : Nat) (rem : List CompVar) (env : VEnv)
    (hne : rem ≠ []) (hlen : (roundStep rem env).1.length ≠ rem.length) :
    phase2Loop (fuel + 1) rem env
      = phase2Loop fuel (roundStep rem env).1 (roundStep rem env).2 := by
  rw [phase2Loop_succ_eq fuel rem env hne, if_neg hlen]

/-- Under acyclicity, the loop succeeds within its fuel bound and the final
environment is exactly the canonical solution. -/
theorem phase2Loop_spec (base : VEnv) (T : List CompVar)
    (hndT : (T.map CompVar.name).Nodup)
    (hbase : ∀ v ∈ T, base v.name = none)
    (hacy : acyclicFrom base T = true) :
    ∀ (fuel : Nat) (rem : List CompVar) (env : VEnv),
      (∀ v ∈ rem, v ∈ T) →
      (rem.map CompVar.name).Nodup →
      (∀ q, env q =
        if q ∈ rem.map CompVar.name then none else canonEnv base T q) →
      rem.length < fuel →
      ∃ envF, phase2Loop fuel rem env = .ok envF ∧
        ∀ q, envF q = canonEnv base T q := by
  intro fuel
  induction fuel with
  | zero => intro rem env _ _ _ hlt; exact absurd hlt (Nat.not_lt_zero _)
  | succ fuel ih =>
    intro rem env hsub hnd henv hlt
    rcases rem with _ | ⟨v, rest⟩
    · refine ⟨env, phase2Loop_succ_empty fuel env, ?_⟩
      intro q
      have h := henv q
      simpa using h
    · have hS : (([] : List String) ++ (v :: rest).map CompVar.name).Nodup := by
        simpa using hnd
      have henv0 : ∀ q, env q =
          if q ∈ ([] : List String) ∨ q ∈ (v :: rest).map CompVar.name then none
          else canonEnv base T q := by
        intro q
        rw [henv q]
        apply if_congr _ rfl rfl
        simp
      obtain ⟨hsl, henv', hres⟩ :=
        roundStep_spec base T hndT hbase hacy (v :: rest) [] env hsub hS henv0
      obtain ⟨w, hwmem, hwrefs⟩ :=
        exists_ready T base hndT hbase hacy (v :: rest) env hsub (by simp) henv
      have hwnot : w ∉ (roundStep (v :: rest) env).1 := hres w hwmem hwrefs
      have hlen : (roundStep (v :: rest) env).1.length ≠ (v :: rest).length := by
        intro heq
        have heql : (roundStep (v :: rest) env).1 = v :: rest :=
          hsl.eq_of_length heq
        rw [heql] at hwnot
        exact hwnot hwmem
      rw [phase2Loop_succ_progress fuel (v :: rest) env (by simp) hlen]
      apply ih
      · intro u hu
        exact hsub u (roundStep_pending_subset _ _ u hu)
      · exact List.Nodup.sublist (hsl.map CompVar.name) hnd
      · intro q
        rw [henv' q]
        apply if_congr _ rfl rfl
        simp
      · have h1 : (roundStep (v :: rest) env).1.length ≤ (v :: rest).length :=
          hsl.length_le
        have h2 : (roundStep (v :: rest) env).1.length < (v :: rest).length :=
          lt_of_le_of_ne h1 hlen
        omega

/-- The loop always terminates with either a success or an evaluator error
carrying the name of one of the computed variables. -/
theorem phase2Loop_ok_or_error :
    ∀ (fuel : Nat) (rem : List CompVar) (env : VEnv),
      (∃ e, phase2Loop fuel rem env = .ok e) ∨
      (∃ v, v ∈ rem ∧ phase2Loop fuel rem env = .error v.name) := by
  intro fuel
  induction fuel with
  | zero => intro rem env; exact Or.inl ⟨env, rfl⟩
  | succ fuel ih =>
    intro rem env
    rcases hrem : rem with _ | ⟨v, rest⟩
    · exact Or.inl ⟨env, rfl⟩
    · have hrec :
          (∃ e, phase2Loop fuel (roundStep (v :: rest) env).1
              (roundStep (v :: rest) env).2 = .ok e) ∨
          (∃ u, u ∈ (v :: rest) ∧
            phase2Loop fuel (roundStep (v :: rest) env).1
              (roundStep (v :: rest) env).2 = .error u.name) := by
        rcases ih (roundStep (v :: rest) env).1 (roundStep (v :: rest) env).2
            with ⟨e, hok⟩ | ⟨u, hu, herr⟩
        · exact Or.inl ⟨e, hok⟩
        · exact Or.inr ⟨u, roundStep_pending_subset _ _ u hu, herr⟩
      rw [phase2Loop_succ_eq fuel (v :: rest) env (by simp)]
      by_cases hlen : (roundStep (v :: rest) env).1.length = (v :: rest).length
      · rw [if_pos hlen]
        cases hp : (roundStep (v :: rest) env).1 with
        | nil =>
          rw [hp] at hlen
          simp at hlen
        | cons w ws =>
          cases hev : evalComputed w (roundStep (v :: rest) env).2 with
          | error e =>
            right
            refine ⟨w, ?_, ?_⟩
            · exact roundStep_pending_subset _ _ w
                (hp ▸ List.mem_cons_self w ws)
            · rw [evalComputed_error_name _ _ _ hev] at hev
              simp [hp, hev]
          | ok val =>
            rw [hp] at hrec
            rcases hrec with ⟨e, hok⟩ | ⟨u, hu, herr⟩
            · left
              exact ⟨e, by simp [hp, hev, hok]⟩
            · right
              exact ⟨u, hu, by simp [hp, hev, herr]⟩
      · rw [if_neg hlen]
        exact hrec

/-- C5: for any acyclic computed-variable system (witnessed by a topological
order `T` of the computed variables over the phase-1 base environment),
`collect_variables` phase 2 resolves every computed variable within its N+1
round bound and the resulting environment is the canonical solution — hence
independent of the order in which the computed variables are listed; and for
any system at all, the loop terminates with either success or an evaluator
error carrying the name of one of the computed variables. -/
theorem collect_variables_computed_fixed_point
    (base : VEnv) (T L₁ L₂ : List CompVar)
    (hnd : (T.map CompVar.name).Nodup)
    (hbase : ∀ v ∈ T, base v.name = none)
    (hacy : acyclicFrom base T = true)
    (hp₁ : T.Perm L₁) (hp₂ : T.Perm L₂) :
    (∃ e₁ e₂ : VEnv, collectComputed L₁ base = .ok e₁ ∧
      collectComputed L₂ base = .ok e₂ ∧ (∀ q, e₁ q = e₂ q) ∧
      ∀ v ∈ T, (e₁ v.name).isSome = true)
    ∧ ∀ (L : List CompVar) (b : VEnv),
        (∃ e, collectComputed L b = .ok e) ∨
        (∃ v, v ∈ L ∧ collectComputed L b = .error v.name) := by
  constructor
  · have key : ∀ L : List CompVar, T.Perm L →
        ∃ e, collectComputed L base = .ok e ∧ ∀ q, e q = canonEnv base T q := by
      intro L hp
      have hsub : ∀ v ∈ L, v ∈ T := fun v hv => hp.mem_iff.mpr hv
      have hndL : (L.map CompVar.name).Nodup := ((hp.map CompVar.name).nodup_iff).mp hnd
      have henv : ∀ q, base q =
          if q ∈ L.map CompVar.name then none else canonEnv base T q := by
        intro q
        by_cases hq : q ∈ L.map CompVar.name
        · rw [if_pos hq]
          obtain ⟨w, hw, hwn⟩ := List.mem_map.mp hq
          rw [← hwn]
          exact hbase w (hsub w hw)
        · rw [if_neg hq]
          have hqT : q ∉ T.map CompVar.name := by
            intro hmem
            exact hq (((hp.map CompVar.name).mem_iff).mp hmem)
          rw [canonEnv_not_mem T base q hqT]
      obtain ⟨envF, hok, hcanonq⟩ := phase2Loop_spec base T hnd hbase hacy
        (L.length + 1) L base hsub hndL henv (Nat.lt_succ_self _)
      exact ⟨envF, hok, hcanonq⟩
    obtain ⟨e₁, hok₁, hc₁⟩ := key L₁ hp₁
    obtain ⟨e₂, hok₂, hc₂⟩ := key L₂ hp₂
    refine ⟨e₁, e₂, hok₁, hok₂, ?_, ?_⟩
    · intro q
      rw [hc₁ q, hc₂ q]
    · intro v hv
      rw [hc₁ v.name, canonEnv_isSome]
      exact Or.inr (List.mem_map_of_mem CompVar.name hv)
  · intro L b
    exact phase2Loop_ok_or_error (L.length + 1) L b

/-- Witness for C5 at a concrete input: two mutually referencing computed
variables (`a` references `b`; `b` references only the base variable `x`)
resolve in both declaration orders to the same environment. -/
theorem collect_variables_computed_fixed_point_witness :
    ∃ e₁ e₂ : VEnv,
      collectComputed
          [CompVar.mk "a" ["b"] (fun _ => Value.vstr "A"),
            CompVar.mk "b" ["x"] (fun _ => Value.vstr "B")]
          (fun q => if q = "x" then some (Value.vstr "seed") else none) = .ok e₁ ∧
      collectComputed
          [CompVar.mk "b" ["x"] (fun _ => Value.vstr "B"),
            CompVar.mk "a" ["b"] (fun _ => Value.vstr "A")]
          (fun q => if q = "x" then some (Value.vstr "seed") else none) = .ok e₂ ∧
      (∀ q, e₁ q = e₂ q) ∧
      ∀ v ∈ [CompVar.mk "b" ["x"] (fun _ => Value.vstr "B"),
          CompVar.mk "a" ["b"] (fun _ => Value.vstr "A")],
        (e₁ v.name).isSome = true :=
  (collect_variables_computed_fixed_point
    (fun q => if q = "x" then some (Value.vstr "seed") else none)
    [CompVar.mk "b" ["x"] (fun _ => Value.vstr "B"),
      CompVar.mk "a" ["b"] (fun _ => Value.vstr "A")]
    [CompVar.mk "a" ["b"] (fun _ => Value.vstr "A"),
      CompVar.mk "b" ["x"] (fun _ => Value.vstr "B")]
    [CompVar.mk "b" ["x"] (fun _ => Value.vstr "B"),
      CompVar.mk "a" ["b"] (fun _ => Value.vstr "A")]
    (by decide)
    (by
      intro v hv
      rcases List.mem_cons.mp hv with h | h
      · subst h; rfl
      · rcases List.mem_cons.mp h with h2 | h2
        · subst h2; rfl
        · exact absurd h2 (List.not_mem_nil v))
    rfl
    (List.Perm.swap (CompVar.mk "a" ["b"] (fun _ => Value.vstr "A"))
      (CompVar.mk "b" ["x"] (fun _ => Value.vstr "B")) [])
    (List.Perm.refl _)).1

end Diecut
